import Mathlib

/-!
Verification of the brainrot interpreter pipeline: the instruction model,
the peephole optimiser passes (`src/src/optimise.rs`), the jump resolver
(`src/bri/src/resolve.rs`), and the tape-machine executor
(`src/bri/src/lib.rs`).  Machine integers (`usize`, `u8`) are modelled as
`Nat` with explicit `% 256` where cell wrap-around matters; Rust panics are
modelled as `Option`/`Except` error values.
-/

namespace Brainrot

/-- `Jump` from `src/src/optimise.rs` / `src/bri/src/resolve.rs` usage:
`JumpR`/`JumpL` carry the (initially placeholder) target index. -/
inductive Jump where
  | JumpR : Nat → Jump
  | JumpL : Nat → Jump
deriving DecidableEq, Repr

/-- The counted instruction set used by `src/src/optimise.rs` and
`src/bri/src/resolve.rs`: arithmetic and moves carry a count, `Clear` is the
optimiser-synthesised cell reset, `Empty` the tombstone slot. -/
inductive Op where
  | Increment : Nat → Op
  | Decrement : Nat → Op
  | MoveR : Nat → Op
  | MoveL : Nat → Op
  | Jump : Jump → Op
  | Set : Op
  | Get : Op
  | Debug : Op
  | Clear : Op
  | Empty : Op
deriving DecidableEq, Repr

/-- `matches!(op, Op::Jump(Jump::JumpL(_)))`. -/
def isJumpL : Op → Bool
  | .Jump (.JumpL _) => true
  | _ => false

/-- `matches!(op, Op::Jump(Jump::JumpR(_)))`. -/
def isJumpR : Op → Bool
  | .Jump (.JumpR _) => true
  | _ => false

theorem dropWhile_len_le (p : Op → Bool) : ∀ l : List Op, (l.dropWhile p).length ≤ l.length
  | [] => Nat.le_refl _
  | o :: rest => by
    by_cases h : p o
    · rw [List.dropWhile_cons_of_pos h]
      exact Nat.le_succ_of_le (dropWhile_len_le p rest)
    · rw [List.dropWhile_cons_of_neg h]

/-- The signed net displacement accumulated over a run, mirroring the
`net -= 1` / `net += 1` loop of `fold_consecutive_ops` (the `left` arm is
tested first, as in the Rust `match`). -/
def net_of_run (left right : Nat → Op) (run : List Op) : Int :=
  run.foldl (fun n o => if o = left 1 then n - 1 else if o = right 1 then n + 1 else n) 0

/-- The single instruction written into the first slot of a folded run:
`ops[start] = match net.cmp(&0) {…}` of `fold_consecutive_ops`. -/
def fold_write (left right : Nat → Op) (run : List Op) : Op :=
  let net := net_of_run left right run
  if net < 0 then left net.natAbs
  else if 0 < net then right net.toNat
  else .Empty

/-- `fold_consecutive_ops` from `src/src/optimise.rs` (identical in
`src/bri/src/optimise.rs` and `src/bri/src/resolve.rs`): each maximal run of
consecutive `left 1` / `right 1` instructions is replaced by the net
instruction followed by `Empty` tombstones; scanning resumes right after the
run.  The imperative index loop is rendered as structural recursion on the
remaining list. -/
def fold_consecutive_ops (left right : Nat → Op) : List Op → List Op
  | [] => []
  | op :: rest =>
    if op = left 1 ∨ op = right 1 then
      let run := op :: rest.takeWhile (fun o => o = left 1 || o = right 1)
      fold_write left right run ::
        (List.replicate (rest.takeWhile (fun o => o = left 1 || o = right 1)).length Op.Empty
          ++ fold_consecutive_ops left right (rest.dropWhile (fun o => o = left 1 || o = right 1)))
    else op :: fold_consecutive_ops left right rest
termination_by l => l.length
decreasing_by
  · exact Nat.lt_succ_of_le (dropWhile_len_le _ _)
  · simp

/-- The scanning loop of `rewrite_clear_loops`
(`while let Some([op1, op2, op3]) = ops.get_mut(i..i + 3)`): a window
`JumpR, Decrement(_), JumpL` becomes `Clear, Empty, Empty` and the scan skips
past it (`i += 3`); otherwise the scan advances by one. -/
def clearScan (ops : List Op) (i : Nat) : List Op :=
  if _h : i + 3 ≤ ops.length then
    match ops[i]?, ops[i+1]?, ops[i+2]? with
    | some (.Jump (.JumpR _)), some (.Decrement _), some (.Jump (.JumpL _)) =>
      clearScan (((ops.set i .Clear).set (i+1) .Empty).set (i+2) .Empty) (i+3)
    | _, _, _ => clearScan ops (i+1)
  else ops
termination_by ops.length - i
decreasing_by
  · simp only [List.length_set]; omega
  · omega

/-- `rewrite_clear_loops` from `src/src/optimise.rs`. -/
def rewrite_clear_loops (ops : List Op) : List Op :=
  clearScan ops 0

/-- `ops[a..b].fill(Op::Empty)`: every position `a ≤ k < b` becomes `Empty`,
tracked with an explicit running index `k`. -/
def fillRangeGo (a b : Nat) : Nat → List Op → List Op
  | _, [] => []
  | k, o :: rest => (if a ≤ k ∧ k < b then Op.Empty else o) :: fillRangeGo a b (k+1) rest

/-- Slice fill used by `remove_dead_loops` and `remove_trailing_ops`. -/
def fillRange (a b : Nat) (ops : List Op) : List Op :=
  fillRangeGo a b 0 ops

theorem fillRangeGo_length (a b : Nat) : ∀ (k : Nat) (l : List Op),
    (fillRangeGo a b k l).length = l.length
  | _, [] => rfl
  | k, _ :: rest => by simp [fillRangeGo, fillRangeGo_length a b (k+1) rest]

theorem fillRange_length (a b : Nat) (l : List Op) : (fillRange a b l).length = l.length :=
  fillRangeGo_length a b 0 l

/-- `ops.iter().take_while(|op| !matches!(**op, Op::Jump(Jump::JumpL(_)))).count()`. -/
def countUntilJumpL (l : List Op) : Nat :=
  (l.takeWhile (fun o => !isJumpL o)).length

/-- The `][`-chain scan of `remove_dead_loops`: on a window
`JumpL, JumpR` at `i, i+1`, the dead loop's body `ops[i+1..i+1+n]` is filled
with `Empty`, the position of its closing `]` is recorded in `ends`, and the
scan resumes at that `]`; otherwise the scan advances by one. -/
def deadScan (ops : List Op) (i : Nat) (ends : List Nat) : List Op × List Nat :=
  if _h : i + 2 ≤ ops.length then
    match ops[i]?, ops[i+1]? with
    | some (.Jump (.JumpL _)), some (.Jump (.JumpR _)) =>
      let n := countUntilJumpL (ops.drop (i+1))
      deadScan (fillRange (i+1) (i+1+n) ops) (i+1+n) (ends ++ [i+1+n])
    | _, _ => deadScan ops (i+1) ends
  else (ops, ends)
termination_by ops.length - i
decreasing_by
  · have := fillRange_length (i+1) (i+1+(countUntilJumpL (ops.drop (i+1)))) ops
    omega
  · omega

/-- `ops[i] = Op::Empty` for each recorded loop end; `none` models the Rust
index-out-of-bounds panic when a recorded position is past the end. -/
def eraseEnds : List Op → List Nat → Option (List Op)
  | ops, [] => some ops
  | ops, e :: es => if e < ops.length then eraseEnds (ops.set e Op.Empty) es else none

/-- `remove_dead_loops` from `src/src/optimise.rs`: a loop (its brackets and
body up to the first `]`) leading the program is filled with `Empty`
(`ops[0..=n].fill(Op::Empty)`, `none` modelling the slice panic when no `]`
exists), then the `][`-chain scan erases loops that immediately follow
another loop's close, deferring the erasure of their own `]`. -/
def remove_dead_loops (ops : List Op) : Option (List Op) :=
  let step2 := fun (l : List Op) =>
    let (l2, ends) := deadScan l 0 []
    eraseEnds l2 ends
  match ops[0]? with
  | some (Op.Jump (Jump.JumpR _)) =>
    let n := countUntilJumpL ops
    if n < ops.length then step2 (fillRange 0 (n+1) ops)
    else none
  | _ => step2 ops

/-- `Iterator::rposition`: index of the last element satisfying `p`. -/
def rposition (p : Op → Bool) : List Op → Option Nat
  | [] => none
  | o :: rest =>
    match rposition p rest with
    | some k => some (k + 1)
    | none => if p o then some 0 else none

/-- `Iterator::position`: index of the first element satisfying `p`. -/
def position (p : Op → Bool) : List Op → Option Nat
  | [] => none
  | o :: rest => if p o then some 0 else (position p rest).map (· + 1)

/-- `remove_trailing_ops` from `src/src/optimise.rs`: find the last
`Get`/`Debug`; if it is not the final instruction, erase everything strictly
after the first `JumpL` that follows it (or strictly after the `Get`/`Debug`
itself when no `JumpL` follows). -/
def remove_trailing_ops (ops : List Op) : List Op :=
  match rposition (fun o => o == .Get || o == .Debug) ops with
  | none => ops
  | some last =>
    if last + 1 = ops.length then ops
    else
      let e :=
        match position isJumpL (ops.drop (last+1)) with
        | some j => last + 1 + j
        | none => last
      fillRange (e+1) ops.length ops

/-- `remove_empty_ops`: `ops.retain(|op| *op != Op::Empty)`. -/
def remove_empty_ops (ops : List Op) : List Op :=
  ops.filter (fun o => !(o == Op.Empty))

/-- `optimise` from `src/src/optimise.rs`: the five passes in their fixed
order; `none` propagates the panic cases of `remove_dead_loops`. -/
def optimise (ops : List Op) : Option (List Op) :=
  let o1 := fold_consecutive_ops .MoveL .MoveR ops
  let o2 := fold_consecutive_ops .Decrement .Increment o1
  let o3 := rewrite_clear_loops o2
  match remove_dead_loops o3 with
  | none => none
  | some o4 => some (remove_empty_ops (remove_trailing_ops o4))

/-- The single pass of `resolve_jumps` (`src/bri/src/resolve.rs`, identical
to `Parser::resolve_jumps` in `src/bri/src/parse.rs`): `stack` holds the
positions of pending `[`s (head = top), `acc` the instruction list being
back-patched, `i` the current index.  An unmatched `]` at `i` aborts with
the 1-based position `i+1`. -/
def runSeg : List Op → Nat → List Nat → List Op → Except Nat (List Nat × List Op)
  | [], _, stack, acc => .ok (stack, acc)
  | op :: rest, i, stack, acc =>
    match op with
    | .Jump (.JumpR _) => runSeg rest (i+1) (i :: stack) acc
    | .Jump (.JumpL _) =>
      match stack with
      | [] => .error (i+1)
      | r :: stack' =>
        runSeg rest (i+1) stack'
          ((acc.set r (.Jump (.JumpR (i+1)))).set i (.Jump (.JumpL (r+1))))
    | _ => runSeg rest (i+1) stack acc

/-- `resolve_jumps` from `src/bri/src/resolve.rs`: run the pass from index 0
with an empty stack; a pending `[` left on the stack aborts with its 1-based
position (`panic!("unmatched `[` at position {}", *j + 1)`). -/
def resolve_jumps (ops : List Op) : Except Nat (List Op) :=
  match runSeg ops 0 [] ops with
  | .error e => .error e
  | .ok ([], acc) => .ok acc
  | .ok (r :: _, _) => .error (r + 1)

/-- Dyck-style balance check of the bracket projection: `d` is the current
nesting depth; a `]` at depth 0 or a pending depth at the end fails. -/
def bal : List Op → Nat → Bool
  | [], d => d == 0
  | o :: rest, d =>
    match o with
    | .Jump (.JumpR _) => bal rest (d+1)
    | .Jump (.JumpL _) =>
      match d with
      | 0 => false
      | d' + 1 => bal rest d'
    | _ => bal rest d

/-- `ops[r]` is a `[` whose matching `]` sits at `ops[i]`: the segment
strictly between them is bracket-balanced. -/
def MatchedPair (ops : List Op) (r i : Nat) : Prop :=
  ∃ pre a mid b post, ops = pre ++ a :: (mid ++ b :: post) ∧
    pre.length = r ∧ r + 1 + mid.length = i ∧
    isJumpR a = true ∧ isJumpL b = true ∧ bal mid 0 = true

/-- Fatal conditions of the executors: pointer out of bounds, exhausted
input on a read (spec-modelled executor only), a tombstone reaching the
executor, and exhausted fuel (the model's bound on the step count). -/
inductive ExecErr where
  | oobRight : ExecErr
  | oobLeft : ExecErr
  | noInput : ExecErr
  | emptyOp : ExecErr
  | fuel : ExecErr
deriving DecidableEq, Repr

/-- Modelled from the spec: the Executor of §4.4 for the counted instruction
set (the revision of the executor matching `src/src/optimise.rs` is not
under `src/`; only the uncounted `Cpu::exec` of `src/bri/src/lib.rs` is).
State: data pointer `pc`, tape `ram : Nat → Nat` (cells kept `< 256`,
wrapping arithmetic modulo 256), instruction index `i`, byte input stream,
accumulated output (reversed).  `MoveR n` at or past the 30000-cell bound
and `MoveL n` below zero are fatal; `Set` on exhausted input is fatal (per
the spec); `Empty` reaching the executor is fatal; `Debug` leaves the
machine unchanged (its diagnostic text is not part of the byte output).
Returns the output byte stream. -/
def execute : Nat → List Op → Nat → Nat → (Nat → Nat) → List Nat → List Nat →
    Except ExecErr (List Nat)
  | 0, _, _, _, _, _, _ => .error .fuel
  | fuel + 1, ops, i, pc, ram, input, out =>
    match ops[i]? with
    | none => .ok out.reverse
    | some op =>
      match op with
      | .Increment n => execute fuel ops (i+1) pc
          (fun j => if j = pc then (ram pc + n) % 256 else ram j) input out
      | .Decrement n => execute fuel ops (i+1) pc
          (fun j => if j = pc then (((ram pc : Int) - n).emod 256).toNat else ram j) input out
      | .MoveR n => if pc + n ≥ 30000 then .error .oobRight
          else execute fuel ops (i+1) (pc + n) ram input out
      | .MoveL n => if pc < n then .error .oobLeft
          else execute fuel ops (i+1) (pc - n) ram input out
      | .Jump (.JumpR t) => if ram pc = 0 then execute fuel ops t pc ram input out
          else execute fuel ops (i+1) pc ram input out
      | .Jump (.JumpL t) => if ram pc ≠ 0 then execute fuel ops t pc ram input out
          else execute fuel ops (i+1) pc ram input out
      | .Set =>
        match input with
        | [] => .error .noInput
        | b :: rest => execute fuel ops (i+1) pc
            (fun j => if j = pc then b % 256 else ram j) rest out
      | .Get => execute fuel ops (i+1) pc ram input (ram pc :: out)
      | .Debug => execute fuel ops (i+1) pc ram input out
      | .Clear => execute fuel ops (i+1) pc
          (fun j => if j = pc then 0 else ram j) input out
      | .Empty => .error .emptyOp

end Brainrot

namespace Bri

/-- `Jump` from `src/bri/src/parse.rs`. -/
inductive Jump where
  | JumpR : Nat → Jump
  | JumpL : Nat → Jump
deriving DecidableEq, Repr

/-- The uncounted instruction set of `src/bri/src/parse.rs` (the revision
executed by `Cpu::exec` in `src/bri/src/lib.rs`). -/
inductive Op where
  | Increment : Op
  | Decrement : Op
  | MoveR : Op
  | MoveL : Op
  | Jump : Jump → Op
  | Set : Op
  | Get : Op
  | Debug : Op
deriving DecidableEq, Repr

/-- `const RAM_SIZE: usize = 30_000`. -/
def RAM_SIZE : Nat := 30000

/-- `Cpu` from `src/bri/src/lib.rs`: data pointer `pc` and the tape, whose
`u8` cells are modelled as `Nat` values kept `< 256`. -/
structure Cpu where
  pc : Nat
  ram : Nat → Nat

/-- `Cpu::default()`: pointer 0, all cells 0. -/
def Cpu.default : Cpu := ⟨0, fun _ => 0⟩

/-- Single-point tape update. -/
def write (ram : Nat → Nat) (p v : Nat) : Nat → Nat :=
  fun j => if j = p then v else ram j

/-- The fatal conditions of `Cpu::exec`: the two pointer-bounds panics, and
exhausted fuel (the model's bound on the step count). -/
inductive ExecErr where
  | oobRight : ExecErr
  | oobLeft : ExecErr
  | fuel : ExecErr
deriving DecidableEq, Repr

/-- `Cpu::exec` from `src/bri/src/lib.rs`, with instruction index `i`, the
remaining `stdin` byte stream, and the bytes printed so far (reversed).
`Increment`/`Decrement` wrap modulo 256 (`wrapping_add`/`wrapping_sub`).
`MoveR` increments `pc` and panics when it reaches `RAM_SIZE`; `MoveL`
panics at 0.  `Set` reads one byte into a zero-initialised one-byte buffer:
at end of stream `read` returns `Ok(0)` leaving the buffer untouched, so the
cell receives 0 — only a genuine I/O error (not modelled) would abort.
`Get` emits the cell; `Debug` prints a diagnostic view of the tape, which
does not change the machine state (its text is not modelled as output
bytes).  Returns the final `Cpu`, the remaining input, and the output.
The dispatch on a single fetched instruction is factored into `execOp`,
whose `next` parameter is the interpreter continuation for the remaining
fuel. -/
def execOp (next : Nat → Cpu → List Nat → List Nat → Except ExecErr (Cpu × List Nat × List Nat))
    (i : Nat) (cpu : Cpu) (input out : List Nat) :
    Op → Except ExecErr (Cpu × List Nat × List Nat)
  | .Increment =>
      next (i+1) ⟨cpu.pc, write cpu.ram cpu.pc ((cpu.ram cpu.pc + 1) % 256)⟩ input out
  | .Decrement =>
      next (i+1) ⟨cpu.pc, write cpu.ram cpu.pc ((cpu.ram cpu.pc + 255) % 256)⟩ input out
  | .MoveR =>
      if cpu.pc + 1 = RAM_SIZE then .error .oobRight
      else next (i+1) ⟨cpu.pc + 1, cpu.ram⟩ input out
  | .MoveL =>
      if cpu.pc = 0 then .error .oobLeft
      else next (i+1) ⟨cpu.pc - 1, cpu.ram⟩ input out
  | .Jump (.JumpR r) =>
      if cpu.ram cpu.pc = 0 then next r cpu input out
      else next (i+1) cpu input out
  | .Jump (.JumpL l) =>
      if cpu.ram cpu.pc ≠ 0 then next l cpu input out
      else next (i+1) cpu input out
  | .Set =>
    match input with
    | [] => next (i+1) ⟨cpu.pc, write cpu.ram cpu.pc 0⟩ [] out
    | b :: rest => next (i+1) ⟨cpu.pc, write cpu.ram cpu.pc (b % 256)⟩ rest out
  | .Get => next (i+1) cpu input (cpu.ram cpu.pc :: out)
  | .Debug => next (i+1) cpu input out

/-- The fetch-dispatch loop of `Cpu::exec`. -/
def exec : Nat → List Op → Nat → Cpu → List Nat → List Nat →
    Except ExecErr (Cpu × List Nat × List Nat)
  | 0, _, _, _, _, _ => .error .fuel
  | fuel + 1, ops, i, cpu, input, out =>
    match ops[i]? with
    | none => .ok (cpu, input, out.reverse)
    | some op => execOp (exec fuel ops) i cpu input out op

end Bri

namespace Brainrot

/-- C1: refuted (code bug).  For the five-instruction program `[[]].` the
optimiser and the raw pipeline do not agree: `optimise` leaves the stray
close bracket of the nested leading loop (dead-loop elimination erases only
up to the *first* `]`), so the optimised sequence `], .` fails jump
resolution with an unmatched-`]` error at position 1, while the raw
sequence resolves and executes, producing the single output byte 0.  The
claimed byte-for-byte identical behaviour therefore fails. -/
theorem c1_optimised_behaviour_differs :
    optimise [Op.Jump (Jump.JumpR 0), Op.Jump (Jump.JumpR 0), Op.Jump (Jump.JumpL 0),
        Op.Jump (Jump.JumpL 0), Op.Get]
      = some [Op.Jump (Jump.JumpL 0), Op.Get]
    ∧ resolve_jumps [Op.Jump (Jump.JumpL 0), Op.Get] = .error 1
    ∧ resolve_jumps [Op.Jump (Jump.JumpR 0), Op.Jump (Jump.JumpR 0), Op.Jump (Jump.JumpL 0),
        Op.Jump (Jump.JumpL 0), Op.Get]
      = .ok [Op.Jump (Jump.JumpR 4), Op.Jump (Jump.JumpR 3), Op.Jump (Jump.JumpL 2),
          Op.Jump (Jump.JumpL 1), Op.Get]
    ∧ execute 100 [Op.Jump (Jump.JumpR 4), Op.Jump (Jump.JumpR 3), Op.Jump (Jump.JumpL 2),
        Op.Jump (Jump.JumpL 1), Op.Get] 0 0 (fun _ => 0) [] [] = .ok [0] := by
  refine ⟨?_, rfl, rfl, rfl⟩
  simp [optimise, fold_consecutive_ops, rewrite_clear_loops, clearScan, remove_dead_loops,
    deadScan, countUntilJumpL, isJumpL, fillRange, fillRangeGo, eraseEnds,
    remove_trailing_ops, rposition, position, remove_empty_ops, fold_write, net_of_run]

/-- C4: refuted (code bug).  On the chain `[-][-][-]` the middle loop
survives `remove_dead_loops` (the leading-loop erasure removes its own `]`,
so the `][` test cannot see the boundary), although the claim and the
code's own comment say all three are erased; and on the nested leading loop
`[[]]` only the prefix up to the *first* `]` is erased, leaving a stray
unmatched close bracket instead of erasing the whole nested body. -/
theorem c4_dead_loops_not_all_erased :
    remove_dead_loops [Op.Jump (Jump.JumpR 0), Op.Decrement 1, Op.Jump (Jump.JumpL 0),
        Op.Jump (Jump.JumpR 0), Op.Decrement 1, Op.Jump (Jump.JumpL 0),
        Op.Jump (Jump.JumpR 0), Op.Decrement 1, Op.Jump (Jump.JumpL 0)]
      = some [Op.Empty, Op.Empty, Op.Empty,
          Op.Jump (Jump.JumpR 0), Op.Decrement 1, Op.Jump (Jump.JumpL 0),
          Op.Empty, Op.Empty, Op.Empty]
    ∧ remove_dead_loops [Op.Jump (Jump.JumpR 0), Op.Jump (Jump.JumpR 0),
        Op.Jump (Jump.JumpL 0), Op.Jump (Jump.JumpL 0)]
      = some [Op.Empty, Op.Empty, Op.Empty, Op.Jump (Jump.JumpL 0)] := by
  constructor <;>
    simp [remove_dead_loops, deadScan, countUntilJumpL, isJumpL, fillRange, fillRangeGo, eraseEnds]

/-- C2: counterexample.  The window `JumpIfZero, Decrement(2), JumpIfNonZero`
— a decrement count different from 1 — is *not* left unmodified:
`rewrite_clear_loops` matches `Op::Decrement(_)` with any count and rewrites
the window to `Clear, Empty, Empty`. -/
theorem c2_counterexample :
    rewrite_clear_loops [Op.Jump (Jump.JumpR 0), Op.Decrement 2, Op.Jump (Jump.JumpL 0)]
        = [Op.Clear, Op.Empty, Op.Empty]
    ∧ rewrite_clear_loops [Op.Jump (Jump.JumpR 0), Op.Decrement 2, Op.Jump (Jump.JumpL 0)]
        ≠ [Op.Jump (Jump.JumpR 0), Op.Decrement 2, Op.Jump (Jump.JumpL 0)] := by
  have h : rewrite_clear_loops [Op.Jump (Jump.JumpR 0), Op.Decrement 2, Op.Jump (Jump.JumpL 0)]
      = [Op.Clear, Op.Empty, Op.Empty] := by
    simp [rewrite_clear_loops, clearScan]
  exact ⟨h, by rw [h]; decide⟩

/-- C5: counterexample.  In `Get, JumpR, Decrement(1), JumpL` the last
observable instruction (`Get`, index 0) is *not* nested inside the loop
that follows it, yet `remove_trailing_ops` erases nothing: the scan keeps
everything up to the first `JumpL` after the last `Get`/`Debug` regardless
of nesting, so the whole trailing loop survives instead of being erased. -/
theorem c5_counterexample :
    remove_trailing_ops [Op.Get, Op.Jump (Jump.JumpR 0), Op.Decrement 1, Op.Jump (Jump.JumpL 0)]
        = [Op.Get, Op.Jump (Jump.JumpR 0), Op.Decrement 1, Op.Jump (Jump.JumpL 0)]
    ∧ remove_trailing_ops [Op.Get, Op.Jump (Jump.JumpR 0), Op.Decrement 1, Op.Jump (Jump.JumpL 0)]
        ≠ [Op.Get, Op.Empty, Op.Empty, Op.Empty] := by
  have h : remove_trailing_ops [Op.Get, Op.Jump (Jump.JumpR 0), Op.Decrement 1,
      Op.Jump (Jump.JumpL 0)]
      = [Op.Get, Op.Jump (Jump.JumpR 0), Op.Decrement 1, Op.Jump (Jump.JumpL 0)] := by
    simp [remove_trailing_ops, rposition, position, isJumpL, fillRange, fillRangeGo]
  exact ⟨h, by rw [h]; decide⟩

/-! Verification of the jump resolver. -/

theorem runSeg_append (l₁ l₂ : List Op) : ∀ (i : Nat) (stack : List Nat) (acc : List Op),
    runSeg (l₁ ++ l₂) i stack acc =
      match runSeg l₁ i stack acc with
      | .error e => .error e
      | .ok (s, a) => runSeg l₂ (i + l₁.length) s a := by
  induction l₁ generalizing l₂ with
  | nil => intro i stack acc; simp [runSeg]
  | cons op rest ih =>
    intro i stack acc
    have harith : i + 1 + rest.length = i + (rest.length + 1) := by omega
    cases op with
    | Jump j =>
      cases j with
      | JumpR t => simp [runSeg, ih, harith]
      | JumpL t =>
        cases stack with
        | nil => simp [runSeg]
        | cons r s => simp [runSeg, ih, harith]
    | Increment n => simp [runSeg, ih, harith]
    | Decrement n => simp [runSeg, ih, harith]
    | MoveR n => simp [runSeg, ih, harith]
    | MoveL n => simp [runSeg, ih, harith]
    | Set => simp [runSeg, ih, harith]
    | Get => simp [runSeg, ih, harith]
    | Debug => simp [runSeg, ih, harith]
    | Clear => simp [runSeg, ih, harith]
    | Empty => simp [runSeg, ih, harith]

theorem runSeg_acc_length : ∀ (l : List Op) (i : Nat) (stack s : List Nat) (acc a : List Op),
    runSeg l i stack acc = .ok (s, a) → a.length = acc.length := by
  intro l
  induction l with
  | nil => intro i stack s acc a h; cases h; rfl
  | cons op rest ih =>
    intro i stack s acc a h
    cases op with
    | Jump j =>
      cases j with
      | JumpR t => simpa using ih (i+1) (i :: stack) s acc a h
      | JumpL t =>
        cases stack with
        | nil => exact absurd h (by simp [runSeg])
        | cons r stk =>
          have := ih (i+1) stk s _ a h
          simpa using this
    | Increment n => exact ih (i+1) stack s acc a h
    | Decrement n => exact ih (i+1) stack s acc a h
    | MoveR n => exact ih (i+1) stack s acc a h
    | MoveL n => exact ih (i+1) stack s acc a h
    | Set => exact ih (i+1) stack s acc a h
    | Get => exact ih (i+1) stack s acc a h
    | Debug => exact ih (i+1) stack s acc a h
    | Clear => exact ih (i+1) stack s acc a h
    | Empty => exact ih (i+1) stack s acc a h

/-- Positions strictly before the scan point and not pending on the stack
are never written by the rest of the pass. -/
theorem runSeg_untouched : ∀ (l : List Op) (i : Nat) (stack s : List Nat) (acc a : List Op),
    runSeg l i stack acc = .ok (s, a) →
    ∀ p, p < i → p ∉ stack → a[p]? = acc[p]? := by
  intro l
  induction l with
  | nil => intro i stack s acc a h p _ _; cases h; rfl
  | cons op rest ih =>
    intro i stack s acc a h p hp hps
    cases op with
    | Jump j =>
      cases j with
      | JumpR t =>
        refine ih (i+1) (i :: stack) s acc a h p (by omega) ?_
        intro hmem
        rcases List.mem_cons.mp hmem with h1 | h2
        · omega
        · exact hps h2
      | JumpL t =>
        cases stack with
        | nil => exact absurd h (by simp [runSeg])
        | cons r stk =>
          have hr : p ≠ r := fun hpr => hps (hpr ▸ List.mem_cons_self r stk)
          have hi : p ≠ i := by omega
          have := ih (i+1) stk s _ a h p (by omega)
            (fun hmem => hps (List.mem_cons_of_mem r hmem))
          rw [this, List.getElem?_set_ne (by omega), List.getElem?_set_ne (by exact fun hh => hr hh.symm)]
    | Increment n => exact ih (i+1) stack s acc a h p (by omega) hps
    | Decrement n => exact ih (i+1) stack s acc a h p (by omega) hps
    | MoveR n => exact ih (i+1) stack s acc a h p (by omega) hps
    | MoveL n => exact ih (i+1) stack s acc a h p (by omega) hps
    | Set => exact ih (i+1) stack s acc a h p (by omega) hps
    | Get => exact ih (i+1) stack s acc a h p (by omega) hps
    | Debug => exact ih (i+1) stack s acc a h p (by omega) hps
    | Clear => exact ih (i+1) stack s acc a h p (by omega) hps
    | Empty => exact ih (i+1) stack s acc a h p (by omega) hps

/-- Stack entries after a successful scan are either inherited or indices
scanned during the segment. -/
theorem runSeg_stack_mem : ∀ (l : List Op) (i : Nat) (stack s : List Nat) (acc a : List Op),
    runSeg l i stack acc = .ok (s, a) →
    ∀ x ∈ s, x ∈ stack ∨ (i ≤ x ∧ x < i + l.length) := by
  intro l
  induction l with
  | nil => intro i stack s acc a h x hx; cases h; exact Or.inl hx
  | cons op rest ih =>
    intro i stack s acc a h x hx
    have hlen : i + 1 + rest.length = i + (op :: rest).length := by simp; omega
    cases op with
    | Jump j =>
      cases j with
      | JumpR t =>
        rcases ih (i+1) (i :: stack) s acc a h x hx with hmem | hrange
        · rcases List.mem_cons.mp hmem with h1 | h2
          · subst h1; right; simp only [List.length_cons]; omega
          · exact Or.inl h2
        · right; simp only [List.length_cons]; omega
      | JumpL t =>
        cases stack with
        | nil => exact absurd h (by simp [runSeg])
        | cons r stk =>
          rcases ih (i+1) stk s _ a h x hx with hmem | hrange
          · exact Or.inl (List.mem_cons_of_mem r hmem)
          · right; simp only [List.length_cons]; omega
    | Increment n =>
      rcases ih (i+1) stack s acc a h x hx with hm | hr
      · exact Or.inl hm
      · right; simp only [List.length_cons]; omega
    | Decrement n =>
      rcases ih (i+1) stack s acc a h x hx with hm | hr
      · exact Or.inl hm
      · right; simp only [List.length_cons]; omega
    | MoveR n =>
      rcases ih (i+1) stack s acc a h x hx with hm | hr
      · exact Or.inl hm
      · right; simp only [List.length_cons]; omega
    | MoveL n =>
      rcases ih (i+1) stack s acc a h x hx with hm | hr
      · exact Or.inl hm
      · right; simp only [List.length_cons]; omega
    | Set =>
      rcases ih (i+1) stack s acc a h x hx with hm | hr
      · exact Or.inl hm
      · right; simp only [List.length_cons]; omega
    | Get =>
      rcases ih (i+1) stack s acc a h x hx with hm | hr
      · exact Or.inl hm
      · right; simp only [List.length_cons]; omega
    | Debug =>
      rcases ih (i+1) stack s acc a h x hx with hm | hr
      · exact Or.inl hm
      · right; simp only [List.length_cons]; omega
    | Clear =>
      rcases ih (i+1) stack s acc a h x hx with hm | hr
      · exact Or.inl hm
      · right; simp only [List.length_cons]; omega
    | Empty =>
      rcases ih (i+1) stack s acc a h x hx with hm | hr
      · exact Or.inl hm
      · right; simp only [List.length_cons]; omega

/-- Scanning a bracket-balanced segment pops nothing below the `s₁` layer,
returns the stack below it unchanged, and writes only inside the segment or
at the `s₁` positions. -/
theorem runSeg_bal (seg : List Op) : ∀ (i : Nat) (s₁ s₀ : List Nat) (acc : List Op),
    bal seg s₁.length = true →
    ∃ acc', runSeg seg i (s₁ ++ s₀) acc = .ok (s₀, acc') ∧ acc'.length = acc.length ∧
      ∀ p, p ∉ s₁ → (p < i ∨ i + seg.length ≤ p) → acc'[p]? = acc[p]? := by
  induction seg with
  | nil =>
    intro i s₁ s₀ acc h
    simp only [bal, beq_iff_eq] at h
    have : s₁ = [] := List.eq_nil_of_length_eq_zero h
    subst this
    exact ⟨acc, by simp [runSeg], rfl, fun _ _ _ => rfl⟩
  | cons op rest ih =>
    intro i s₁ s₀ acc h
    cases op with
    | Jump j =>
      cases j with
      | JumpR t =>
        simp only [bal] at h
        obtain ⟨acc', hrun, hlen, huntouched⟩ := ih (i+1) (i :: s₁) s₀ acc (by simpa using h)
        refine ⟨acc', by simpa [runSeg] using hrun, hlen, ?_⟩
        intro p hp hrange
        refine huntouched p ?_ ?_
        · intro hmem
          rcases List.mem_cons.mp hmem with h1 | h2
          · simp only [List.length_cons] at hrange; omega
          · exact hp h2
        · simp only [List.length_cons] at hrange ⊢; omega
      | JumpL t =>
        simp only [bal] at h
        cases s₁ with
        | nil => simp at h
        | cons r s₁' =>
          simp only [List.length_cons] at h
          obtain ⟨acc', hrun, hlen, huntouched⟩ :=
            ih (i+1) s₁' s₀ ((acc.set r (.Jump (.JumpR (i+1)))).set i (.Jump (.JumpL (r+1)))) h
          refine ⟨acc', by simpa [runSeg] using hrun, by simpa using hlen, ?_⟩
          intro p hp hrange
          have hpr : p ≠ r := fun hh => hp (hh ▸ List.mem_cons_self r s₁')
          have hpi : p ≠ i := by
            simp only [List.length_cons] at hrange; omega
          rw [huntouched p (fun hmem => hp (List.mem_cons_of_mem r hmem))
              (by simp only [List.length_cons] at hrange ⊢; omega),
            List.getElem?_set_ne (fun hh => hpi hh.symm),
            List.getElem?_set_ne (fun hh => hpr hh.symm)]
    | Increment n =>
      obtain ⟨acc', hrun, hlen, hu⟩ := ih (i+1) s₁ s₀ acc (by simpa [bal] using h)
      refine ⟨acc', by simpa [runSeg] using hrun, hlen, ?_⟩
      intro p hp hrange
      exact hu p hp (by simp only [List.length_cons] at hrange ⊢; omega)
    | Decrement n =>
      obtain ⟨acc', hrun, hlen, hu⟩ := ih (i+1) s₁ s₀ acc (by simpa [bal] using h)
      refine ⟨acc', by simpa [runSeg] using hrun, hlen, ?_⟩
      intro p hp hrange
      exact hu p hp (by simp only [List.length_cons] at hrange ⊢; omega)
    | MoveR n =>
      obtain ⟨acc', hrun, hlen, hu⟩ := ih (i+1) s₁ s₀ acc (by simpa [bal] using h)
      refine ⟨acc', by simpa [runSeg] using hrun, hlen, ?_⟩
      intro p hp hrange
      exact hu p hp (by simp only [List.length_cons] at hrange ⊢; omega)
    | MoveL n =>
      obtain ⟨acc', hrun, hlen, hu⟩ := ih (i+1) s₁ s₀ acc (by simpa [bal] using h)
      refine ⟨acc', by simpa [runSeg] using hrun, hlen, ?_⟩
      intro p hp hrange
      exact hu p hp (by simp only [List.length_cons] at hrange ⊢; omega)
    | Set =>
      obtain ⟨acc', hrun, hlen, hu⟩ := ih (i+1) s₁ s₀ acc (by simpa [bal] using h)
      refine ⟨acc', by simpa [runSeg] using hrun, hlen, ?_⟩
      intro p hp hrange
      exact hu p hp (by simp only [List.length_cons] at hrange ⊢; omega)
    | Get =>
      obtain ⟨acc', hrun, hlen, hu⟩ := ih (i+1) s₁ s₀ acc (by simpa [bal] using h)
      refine ⟨acc', by simpa [runSeg] using hrun, hlen, ?_⟩
      intro p hp hrange
      exact hu p hp (by simp only [List.length_cons] at hrange ⊢; omega)
    | Debug =>
      obtain ⟨acc', hrun, hlen, hu⟩ := ih (i+1) s₁ s₀ acc (by simpa [bal] using h)
      refine ⟨acc', by simpa [runSeg] using hrun, hlen, ?_⟩
      intro p hp hrange
      exact hu p hp (by simp only [List.length_cons] at hrange ⊢; omega)
    | Clear =>
      obtain ⟨acc', hrun, hlen, hu⟩ := ih (i+1) s₁ s₀ acc (by simpa [bal] using h)
      refine ⟨acc', by simpa [runSeg] using hrun, hlen, ?_⟩
      intro p hp hrange
      exact hu p hp (by simp only [List.length_cons] at hrange ⊢; omega)
    | Empty =>
      obtain ⟨acc', hrun, hlen, hu⟩ := ih (i+1) s₁ s₀ acc (by simpa [bal] using h)
      refine ⟨acc', by simpa [runSeg] using hrun, hlen, ?_⟩
      intro p hp hrange
      exact hu p hp (by simp only [List.length_cons] at hrange ⊢; omega)

/-- A successful scan means the balance check succeeds exactly when the
final stack is empty. -/
theorem runSeg_bal_of_ok : ∀ (l : List Op) (i : Nat) (stack s : List Nat) (acc a : List Op),
    runSeg l i stack acc = .ok (s, a) → bal l stack.length = (s.length == 0) := by
  intro l
  induction l with
  | nil => intro i stack s acc a h; cases h; rfl
  | cons op rest ih =>
    intro i stack s acc a h
    cases op with
    | Jump j =>
      cases j with
      | JumpR t => simpa [bal] using ih (i+1) (i :: stack) s acc a h
      | JumpL t =>
        cases stack with
        | nil => exact absurd h (by simp [runSeg])
        | cons r stk => simpa [bal] using ih (i+1) stk s _ a h
    | Increment n => simpa [bal] using ih (i+1) stack s acc a h
    | Decrement n => simpa [bal] using ih (i+1) stack s acc a h
    | MoveR n => simpa [bal] using ih (i+1) stack s acc a h
    | MoveL n => simpa [bal] using ih (i+1) stack s acc a h
    | Set => simpa [bal] using ih (i+1) stack s acc a h
    | Get => simpa [bal] using ih (i+1) stack s acc a h
    | Debug => simpa [bal] using ih (i+1) stack s acc a h
    | Clear => simpa [bal] using ih (i+1) stack s acc a h
    | Empty => simpa [bal] using ih (i+1) stack s acc a h

/-- A failing scan (unmatched `]`) means the balance check fails. -/
theorem runSeg_bal_of_err : ∀ (l : List Op) (i : Nat) (stack : List Nat) (acc : List Op)
    (e : Nat), runSeg l i stack acc = .error e → bal l stack.length = false := by
  intro l
  induction l with
  | nil => intro i stack acc e h; cases h
  | cons op rest ih =>
    intro i stack acc e h
    cases op with
    | Jump j =>
      cases j with
      | JumpR t => simpa [bal] using ih (i+1) (i :: stack) acc e h
      | JumpL t =>
        cases stack with
        | nil => simp [bal]
        | cons r stk => simpa [bal] using ih (i+1) stk _ e h
    | Increment n => simpa [bal] using ih (i+1) stack acc e h
    | Decrement n => simpa [bal] using ih (i+1) stack acc e h
    | MoveR n => simpa [bal] using ih (i+1) stack acc e h
    | MoveL n => simpa [bal] using ih (i+1) stack acc e h
    | Set => simpa [bal] using ih (i+1) stack acc e h
    | Get => simpa [bal] using ih (i+1) stack acc e h
    | Debug => simpa [bal] using ih (i+1) stack acc e h
    | Clear => simpa [bal] using ih (i+1) stack acc e h
    | Empty => simpa [bal] using ih (i+1) stack acc e h

theorem isJumpR_iff (a : Op) : isJumpR a = true ↔ ∃ t, a = Op.Jump (Jump.JumpR t) := by
  cases a with
  | Jump j => cases j with
    | JumpR t => simp [isJumpR]
    | JumpL t => simp [isJumpR]
  | Increment n => simp [isJumpR]
  | Decrement n => simp [isJumpR]
  | MoveR n => simp [isJumpR]
  | MoveL n => simp [isJumpR]
  | Set => simp [isJumpR]
  | Get => simp [isJumpR]
  | Debug => simp [isJumpR]
  | Clear => simp [isJumpR]
  | Empty => simp [isJumpR]

theorem isJumpL_iff (a : Op) : isJumpL a = true ↔ ∃ t, a = Op.Jump (Jump.JumpL t) := by
  cases a with
  | Jump j => cases j with
    | JumpR t => simp [isJumpL]
    | JumpL t => simp [isJumpL]
  | Increment n => simp [isJumpL]
  | Decrement n => simp [isJumpL]
  | MoveR n => simp [isJumpL]
  | MoveL n => simp [isJumpL]
  | Set => simp [isJumpL]
  | Get => simp [isJumpL]
  | Debug => simp [isJumpL]
  | Clear => simp [isJumpL]
  | Empty => simp [isJumpL]

/-- C6: confirmed.  On any sequence accepted by the resolver, every matched
bracket pair `(r, i)` comes out with the open instruction's target set to
`i+1` (one past the matching close) and the close instruction's target set
to `r+1` (one past the matching open); the pass is the single linear scan
`runSeg` over a stack of pending open positions. -/
theorem c6_resolved_jump_targets (ops res : List Op) (r i : Nat)
    (hok : resolve_jumps ops = .ok res) (hpair : MatchedPair ops r i) :
    res[r]? = some (Op.Jump (Jump.JumpR (i+1))) ∧ res[i]? = some (Op.Jump (Jump.JumpL (r+1))) := by
  obtain ⟨pre, a, mid, b, post, hops, hr, hi, ha, hb, hmid⟩ := hpair
  obtain ⟨ta, rfl⟩ := (isJumpR_iff a).mp ha
  obtain ⟨tb, rfl⟩ := (isJumpL_iff b).mp hb
  -- extract the successful full scan
  have hrun : runSeg ops 0 [] ops = .ok ([], res) := by
    unfold resolve_jumps at hok
    rcases hfull : runSeg ops 0 [] ops with e | ⟨s, acc⟩
    · rw [hfull] at hok; cases hok
    · rw [hfull] at hok
      cases s with
      | nil => cases hok; rfl
      | cons x s' => cases hok
  subst hops
  -- split off the prefix
  rw [runSeg_append] at hrun
  rcases hpre : runSeg pre 0 []
      (pre ++ Op.Jump (Jump.JumpR ta) :: (mid ++ Op.Jump (Jump.JumpL tb) :: post))
    with e | ⟨s₁, acc₁⟩
  · rw [hpre] at hrun; cases hrun
  rw [hpre] at hrun
  simp only [Nat.zero_add] at hrun
  rw [hr] at hrun
  -- the open bracket pushes r
  have hrun2 : runSeg (mid ++ Op.Jump (Jump.JumpL tb) :: post) (r+1) (r :: s₁) acc₁
      = .ok ([], res) := by
    simpa [runSeg] using hrun
  -- the balanced body is skipped
  obtain ⟨acc₂, hmidrun, hlen₂, hu₂⟩ := runSeg_bal mid (r+1) [] (r :: s₁) acc₁
    (by simpa using hmid)
  rw [runSeg_append] at hrun2
  simp only [List.nil_append] at hmidrun
  rw [hmidrun] at hrun2
  have hieq : r + 1 + mid.length = i := hi
  rw [hieq] at hrun2
  -- the close bracket pops r and writes both targets
  have hrun3 : runSeg post (i+1) s₁
      ((acc₂.set r (Op.Jump (Jump.JumpR (i+1)))).set i (Op.Jump (Jump.JumpL (r+1))))
      = .ok ([], res) := by
    simpa [runSeg] using hrun2
  -- bookkeeping: lengths and stack bounds
  have hlen₁ : acc₁.length
      = (pre ++ Op.Jump (Jump.JumpR ta) :: (mid ++ Op.Jump (Jump.JumpL tb) :: post)).length :=
    runSeg_acc_length pre 0 [] s₁ _ acc₁ hpre
  have hlenops : (pre ++ Op.Jump (Jump.JumpR ta) :: (mid ++ Op.Jump (Jump.JumpL tb) :: post)).length
      = pre.length + (1 + (mid.length + (1 + post.length))) := by
    simp only [List.length_append, List.length_cons]
    omega
  have hrlt : r < acc₂.length := by rw [hlen₂, hlen₁, hlenops]; omega
  have hilt : i < acc₂.length := by rw [hlen₂, hlen₁, hlenops]; omega
  have hs₁ : ∀ x ∈ s₁, x < r := by
    intro x hx
    rcases runSeg_stack_mem pre 0 [] s₁ _ acc₁ hpre x hx with hmem | hrange
    · cases hmem
    · omega
  have hrs₁ : r ∉ s₁ := fun hmem => absurd (hs₁ r hmem) (by omega)
  have his₁ : i ∉ s₁ := fun hmem => absurd (hs₁ i hmem) (by omega)
  constructor
  · rw [runSeg_untouched post (i+1) s₁ [] _ res hrun3 r (by omega) hrs₁,
      List.getElem?_set_ne (by omega),
      List.getElem?_set_eq_of_lt _ hrlt]
  · rw [runSeg_untouched post (i+1) s₁ [] _ res hrun3 i (by omega) his₁,
      List.getElem?_set_eq_of_lt _ (by simpa using hilt)]

/-- Witness for C6: the program `[]` resolves with the open bracket
targeting 2 (one past the close) and the close targeting 1 (one past the
open). -/
theorem c6_resolved_jump_targets_witness :
    resolve_jumps [Op.Jump (Jump.JumpR 0), Op.Jump (Jump.JumpL 0)]
      = .ok [Op.Jump (Jump.JumpR 2), Op.Jump (Jump.JumpL 1)]
    ∧ [Op.Jump (Jump.JumpR 2), Op.Jump (Jump.JumpL 1)][0]? = some (Op.Jump (Jump.JumpR 2))
    ∧ [Op.Jump (Jump.JumpR 2), Op.Jump (Jump.JumpL 1)][1]? = some (Op.Jump (Jump.JumpL 1)) := by
  have h := c6_resolved_jump_targets [Op.Jump (Jump.JumpR 0), Op.Jump (Jump.JumpL 0)]
    [Op.Jump (Jump.JumpR 2), Op.Jump (Jump.JumpL 1)] 0 1 rfl
    ⟨[], Op.Jump (Jump.JumpR 0), [], Op.Jump (Jump.JumpL 0), [], rfl, rfl, rfl, rfl, rfl, rfl⟩
  exact ⟨rfl, h.1, h.2⟩

/-- C7: confirmed.  `resolve_jumps` succeeds exactly on bracket-balanced
sequences — it fails on an unmatched close bracket (empty pending stack) and
on an unmatched open bracket left after the pass — and a lone `[` and a
lone `]` are each rejected with the 1-based position (1) of the offending
bracket. -/
theorem c7_resolver_rejects_unbalanced :
    (∀ ops : List Op, (∃ res, resolve_jumps ops = .ok res) ↔ bal ops 0 = true)
    ∧ resolve_jumps [Op.Jump (Jump.JumpR 0)] = .error 1
    ∧ resolve_jumps [Op.Jump (Jump.JumpL 0)] = .error 1 := by
  refine ⟨?_, rfl, rfl⟩
  intro ops
  unfold resolve_jumps
  rcases hfull : runSeg ops 0 [] ops with e | ⟨s, acc⟩
  · have hbal := runSeg_bal_of_err ops 0 [] ops e hfull
    simp only [List.length_nil] at hbal
    constructor
    · rintro ⟨res, hres⟩; cases hres
    · intro h; rw [h] at hbal; cases hbal
  · have hbal := runSeg_bal_of_ok ops 0 [] s ops acc hfull
    simp only [List.length_nil] at hbal
    cases s with
    | nil =>
      simp only [List.length_nil] at hbal
      exact ⟨fun _ => by simpa using hbal, fun _ => ⟨acc, rfl⟩⟩
    | cons x s' =>
      simp only [List.length_cons] at hbal
      constructor
      · rintro ⟨res, hres⟩; cases hres
      · intro h
        rw [h] at hbal
        simp at hbal

/-! Verification of run-length folding. -/

theorem fold_nil (left right : Nat → Op) : fold_consecutive_ops left right [] = [] := by
  rw [fold_consecutive_ops]

theorem fold_cons_not_step (left right : Nat → Op) {op : Op} (rest : List Op)
    (h : ¬(op = left 1 ∨ op = right 1)) :
    fold_consecutive_ops left right (op :: rest) = op :: fold_consecutive_ops left right rest := by
  conv_lhs => rw [fold_consecutive_ops]
  simp [h]

theorem fold_cons_step (left right : Nat → Op) {op : Op} (rest : List Op)
    (h : op = left 1 ∨ op = right 1) :
    fold_consecutive_ops left right (op :: rest)
      = fold_write left right (op :: rest.takeWhile (fun o => o = left 1 || o = right 1))
        :: (List.replicate (rest.takeWhile (fun o => o = left 1 || o = right 1)).length Op.Empty
          ++ fold_consecutive_ops left right (rest.dropWhile (fun o => o = left 1 || o = right 1))) := by
  conv_lhs => rw [fold_consecutive_ops]
  simp [h]

theorem takeWhile_append_ex_not (p : Op → Bool) :
    ∀ (l₁ l₂ : List Op), (∃ x ∈ l₁, ¬p x = true) →
      (l₁ ++ l₂).takeWhile p = l₁.takeWhile p ∧ (l₁ ++ l₂).dropWhile p = l₁.dropWhile p ++ l₂ := by
  intro l₁
  induction l₁ with
  | nil => rintro l₂ ⟨x, hx, _⟩; cases hx
  | cons o l₁' ih =>
    rintro l₂ ⟨x, hx, hpx⟩
    by_cases hpo : p o = true
    · have hx' : x ∈ l₁' := by
        rcases List.mem_cons.mp hx with h1 | h2
        · exact absurd (h1 ▸ hpo) hpx
        · exact h2
      obtain ⟨ht, hd⟩ := ih l₂ ⟨x, hx', hpx⟩
      constructor
      · simp only [List.cons_append, List.takeWhile_cons_of_pos hpo, ht]
      · simp only [List.cons_append, List.dropWhile_cons_of_pos hpo, hd]
    · constructor
      · simp only [List.cons_append, List.takeWhile_cons_of_neg hpo,
          List.takeWhile_cons_of_neg hpo]
      · simp only [List.cons_append, List.dropWhile_cons_of_neg hpo,
          List.dropWhile_cons_of_neg hpo, List.cons_append]

theorem takeWhile_append_all (p : Op → Bool) :
    ∀ (l₁ l₂ : List Op), (∀ x ∈ l₁, p x = true) →
      (l₁ ++ l₂).takeWhile p = l₁ ++ l₂.takeWhile p ∧ (l₁ ++ l₂).dropWhile p = l₂.dropWhile p := by
  intro l₁
  induction l₁ with
  | nil => intro l₂ _; exact ⟨rfl, rfl⟩
  | cons o l₁' ih =>
    intro l₂ hall
    have hpo : p o = true := hall o (List.mem_cons_self o l₁')
    obtain ⟨ht, hd⟩ := ih l₂ (fun x hx => hall x (List.mem_cons_of_mem o hx))
    constructor
    · simp only [List.cons_append, List.takeWhile_cons_of_pos hpo, ht]
    · simp only [List.cons_append, List.dropWhile_cons_of_pos hpo, hd]

theorem dropWhile_last (p : Op → Bool) :
    ∀ l : List Op, (∃ x ∈ l, ¬p x = true) →
      l.dropWhile p ≠ [] ∧ (l.dropWhile p).getLast? = l.getLast? := by
  intro l
  induction l with
  | nil => rintro ⟨x, hx, _⟩; cases hx
  | cons o rest ih =>
    rintro ⟨x, hx, hpx⟩
    by_cases hpo : p o = true
    · have hx' : x ∈ rest := by
        rcases List.mem_cons.mp hx with h1 | h2
        · exact absurd (h1 ▸ hpo) hpx
        · exact h2
      obtain ⟨hne, hlast⟩ := ih ⟨x, hx', hpx⟩
      have hrest : rest ≠ [] := by
        intro hrest; rw [hrest] at hx'; cases hx'
      rw [List.dropWhile_cons_of_pos hpo]
      refine ⟨hne, ?_⟩
      rw [hlast]
      cases rest with
      | nil => exact absurd rfl hrest
      | cons r rest' => rw [List.getLast?_cons_cons]
    · rw [List.dropWhile_cons_of_neg hpo]
      exact ⟨by simp, rfl⟩

/-- Folding distributes over an append whose left part does not end inside a
run. -/
theorem fold_append_of_last_not_step (left right : Nat → Op) :
    ∀ (n : Nat) (pre l₂ : List Op), pre.length ≤ n →
      (∀ x, pre.getLast? = some x → ¬(x = left 1 ∨ x = right 1)) →
      fold_consecutive_ops left right (pre ++ l₂)
        = fold_consecutive_ops left right pre ++ fold_consecutive_ops left right l₂ := by
  intro n
  induction n with
  | zero =>
    intro pre l₂ hlen _
    have : pre = [] := List.eq_nil_of_length_eq_zero (Nat.le_zero.mp hlen)
    subst this
    simp [fold_nil]
  | succ n ih =>
    intro pre l₂ hlen hlast
    cases pre with
    | nil => simp [fold_nil]
    | cons op pre' =>
      by_cases hstep : op = left 1 ∨ op = right 1
      · -- the head starts a run; the run cannot reach the end of `pre`
        cases hp' : pre' with
        | nil =>
          subst hp'
          exact absurd hstep (hlast op rfl)
        | cons q pre'' =>
          rw [← hp']
          have hpre'ne : pre' ≠ [] := by rw [hp']; simp
          have hlast' : ∀ x, pre'.getLast? = some x → ¬(x = left 1 ∨ x = right 1) := by
            intro x hx
            refine hlast x ?_
            rw [hp'] at hx ⊢
            rw [List.getLast?_cons_cons]
            exact hx
          -- the last element of pre' fails the run predicate
          have hzlast : pre'.getLast? = some (pre'.getLast hpre'ne) :=
            List.getLast?_eq_getLast pre' hpre'ne
          have hzmem : pre'.getLast hpre'ne ∈ pre' := List.getLast_mem hpre'ne
          set z := pre'.getLast hpre'ne with hz
          have hzns : ¬(z = left 1 ∨ z = right 1) := hlast' z hzlast
          have hzP : ¬((fun o => o = left 1 || o = right 1) z = true) := by
            simpa using hzns
          have hex : ∃ x ∈ pre', ¬((fun o => (o = left 1 || o = right 1 : Bool)) x = true) :=
            ⟨z, hzmem, hzP⟩
          obtain ⟨ht, hd⟩ := takeWhile_append_ex_not _ pre' l₂ hex
          rw [List.cons_append, fold_cons_step left right _ hstep, ht, hd,
            fold_cons_step left right _ hstep]
          obtain ⟨hdne, hdlast⟩ := dropWhile_last _ pre' hex
          have hdlen : (pre'.dropWhile (fun o => (o = left 1 || o = right 1 : Bool))).length ≤ n := by
            have h1 := dropWhile_len_le (fun o => (o = left 1 || o = right 1 : Bool)) pre'
            simp only [List.length_cons] at hlen
            omega
          rw [ih _ l₂ hdlen (by rw [hdlast]; exact hlast')]
          simp [List.append_assoc]
      · rw [List.cons_append, fold_cons_not_step left right _ hstep,
          fold_cons_not_step left right _ hstep]
        cases hp' : pre' with
        | nil =>
          subst hp'
          simp [fold_nil]
        | cons q pre'' =>
          rw [← hp']
          have hlast' : ∀ x, pre'.getLast? = some x → ¬(x = left 1 ∨ x = right 1) := by
            intro x hx
            refine hlast x ?_
            rw [hp'] at hx ⊢
            rw [List.getLast?_cons_cons]
            exact hx
          have hlen' : pre'.length ≤ n := by
            simp only [List.length_cons] at hlen; omega
          rw [ih pre' l₂ hlen' hlast']
          simp

/-- Folding a maximal run followed by a non-run tail. -/
theorem fold_run_append (left right : Nat → Op) (run post : List Op) (hne : run ≠ [])
    (hall : ∀ x ∈ run, x = left 1 ∨ x = right 1)
    (hpost : ∀ x, post.head? = some x → ¬(x = left 1 ∨ x = right 1)) :
    fold_consecutive_ops left right (run ++ post)
      = fold_write left right run
        :: (List.replicate (run.length - 1) Op.Empty ++ fold_consecutive_ops left right post) := by
  cases run with
  | nil => exact absurd rfl hne
  | cons op run' =>
    have hstep : op = left 1 ∨ op = right 1 := hall op (List.mem_cons_self op run')
    have hall' : ∀ x ∈ run', (fun o => (o = left 1 || o = right 1 : Bool)) x = true := by
      intro x hx
      simpa using hall x (List.mem_cons_of_mem op hx)
    have hpostt : post.takeWhile (fun o => (o = left 1 || o = right 1 : Bool)) = [] := by
      cases post with
      | nil => rfl
      | cons z post' =>
        refine List.takeWhile_cons_of_neg ?_
        simpa using hpost z rfl
    have hpostd : post.dropWhile (fun o => (o = left 1 || o = right 1 : Bool)) = post := by
      cases post with
      | nil => rfl
      | cons z post' =>
        refine List.dropWhile_cons_of_neg ?_
        simpa using hpost z rfl
    obtain ⟨ht, hd⟩ := takeWhile_append_all _ run' post hall'
    rw [List.cons_append, fold_cons_step left right _ hstep, ht, hd, hpostt, hpostd]
    simp

/-- Slots not belonging to any run are left unchanged. -/
theorem fold_id_of_no_steps (left right : Nat → Op) :
    ∀ l : List Op, (∀ x ∈ l, ¬(x = left 1 ∨ x = right 1)) →
      fold_consecutive_ops left right l = l := by
  intro l
  induction l with
  | nil => exact fun _ => fold_nil left right
  | cons op rest ih =>
    intro h
    rw [fold_cons_not_step left right rest (h op (List.mem_cons_self op rest)),
      ih (fun x hx => h x (List.mem_cons_of_mem op hx))]

/-- The accumulated net of a run equals the count difference of its two
constructors. -/
theorem net_of_run_eq_counts (left right : Nat → Op) (hneq : left 1 ≠ right 1) :
    ∀ (run : List Op) (n : Int), (∀ x ∈ run, x = left 1 ∨ x = right 1) →
      run.foldl (fun n o => if o = left 1 then n - 1 else if o = right 1 then n + 1 else n) n
        = n + ((run.countP (fun o => o = right 1) : Int) - (run.countP (fun o => o = left 1))) := by
  intro run
  induction run with
  | nil => intro n _; simp
  | cons x rest ih =>
    intro n hall
    have hx := hall x (List.mem_cons_self x rest)
    have hrest := fun y hy => hall y (List.mem_cons_of_mem x hy)
    by_cases hxl : x = left 1
    · have hxr : ¬(decide (x = right 1) = true) := by
        simp only [decide_eq_true_eq]
        intro hr
        exact hneq (hxl ▸ hr)
      rw [List.foldl_cons, if_pos hxl,
        List.countP_cons_of_pos (fun o => decide (o = left 1)) rest (by simpa using hxl),
        List.countP_cons_of_neg (fun o => decide (o = right 1)) rest hxr,
        ih (n - 1) hrest]
      push_cast
      ring
    · have hxr : x = right 1 := hx.resolve_left hxl
      rw [List.foldl_cons, if_neg hxl, if_pos hxr,
        List.countP_cons_of_pos (fun o => decide (o = right 1)) rest (by simpa using hxr),
        List.countP_cons_of_neg (fun o => decide (o = left 1)) rest (by simpa using hxl),
        ih (n + 1) hrest]
      push_cast
      ring

/-- C8: confirmed.  A maximal run of unit-step operations of one
complementary pair folds to the single net instruction in its first slot —
`left` of the absolute net when the net is negative, `right` of the net when
positive, `NoOp` when zero, where the net is the signed count difference of
the two unit steps — followed by `NoOp` tombstones in the other slots, and
operations outside such runs are unchanged. -/
theorem c8_fold_maximal_runs (left right : Nat → Op) :
    (∀ (n : Nat) (pre run post : List Op), pre.length ≤ n →
      (∀ x, pre.getLast? = some x → ¬(x = left 1 ∨ x = right 1)) →
      run ≠ [] → (∀ x ∈ run, x = left 1 ∨ x = right 1) →
      (∀ x, post.head? = some x → ¬(x = left 1 ∨ x = right 1)) →
      fold_consecutive_ops left right (pre ++ (run ++ post))
        = fold_consecutive_ops left right pre
          ++ (fold_write left right run
            :: (List.replicate (run.length - 1) Op.Empty
              ++ fold_consecutive_ops left right post)))
    ∧ (left 1 ≠ right 1 → ∀ run : List Op, (∀ x ∈ run, x = left 1 ∨ x = right 1) →
        net_of_run left right run
          = ((run.countP (fun o => o = right 1) : Int) - (run.countP (fun o => o = left 1))))
    ∧ (∀ l : List Op, (∀ x ∈ l, ¬(x = left 1 ∨ x = right 1)) →
        fold_consecutive_ops left right l = l) := by
  refine ⟨?_, ?_, fold_id_of_no_steps left right⟩
  · intro n pre run post hlen hpre hne hall hpost
    rw [fold_append_of_last_not_step left right n pre (run ++ post) hlen hpre,
      fold_run_append left right run post hne hall hpost]
  · intro hneq run hall
    have := net_of_run_eq_counts left right hneq run 0 hall
    simpa [net_of_run] using this

/-- Witness for C8: `., > > < >, ;` — the interior run of four unit moves
(net **+2**) folds to `MoveR 2` followed by three tombstones, between the
untouched `Get` and `Set`. -/
theorem c8_fold_maximal_runs_witness :
    fold_consecutive_ops Op.MoveL Op.MoveR
        ([Op.Get] ++ ([Op.MoveR 1, Op.MoveR 1, Op.MoveL 1, Op.MoveR 1] ++ [Op.Set]))
      = fold_consecutive_ops Op.MoveL Op.MoveR [Op.Get]
        ++ (fold_write Op.MoveL Op.MoveR [Op.MoveR 1, Op.MoveR 1, Op.MoveL 1, Op.MoveR 1]
          :: (List.replicate ([Op.MoveR 1, Op.MoveR 1, Op.MoveL 1, Op.MoveR 1].length - 1) Op.Empty
            ++ fold_consecutive_ops Op.MoveL Op.MoveR [Op.Set]))
    ∧ net_of_run Op.MoveL Op.MoveR [Op.MoveR 1, Op.MoveR 1, Op.MoveL 1, Op.MoveR 1] = 2 := by
  constructor
  · refine (c8_fold_maximal_runs Op.MoveL Op.MoveR).1 1 [Op.Get]
      [Op.MoveR 1, Op.MoveR 1, Op.MoveL 1, Op.MoveR 1] [Op.Set] (by simp) ?_ (by simp)
      (by decide) ?_
    · intro x hx
      have : x = Op.Get := by simpa [List.getLast?] using hx.symm
      subst this
      decide
    · intro x hx
      have : x = Op.Set := by simpa using hx.symm
      subst this
      decide
  · have := (c8_fold_maximal_runs Op.MoveL Op.MoveR).2.1 (by decide)
      [Op.MoveR 1, Op.MoveR 1, Op.MoveL 1, Op.MoveR 1] (by decide)
    rw [this]
    decide

/-! Verification of the clear-loop rewrite. -/

theorem set_append_right_op (l1 l2 : List Op) (k : Nat) (v : Op) :
    (l1 ++ l2).set (l1.length + k) v = l1 ++ l2.set k v := by
  rw [List.set_append, if_neg (by omega), Nat.add_sub_cancel_left]

theorem getElem?_append_right_op (l1 l2 : List Op) (k : Nat) :
    (l1 ++ l2)[l1.length + k]? = l2[k]? := by
  rw [List.getElem?_append_right (by omega), Nat.add_sub_cancel_left]

/-- The clear-loop scan never looks back: scanning `pre ++ l₂` from the
start of `l₂` is scanning `l₂`. -/
theorem clearScan_shift : ∀ (n : Nat) (l₂ pre : List Op) (i : Nat), l₂.length - i ≤ n →
    clearScan (pre ++ l₂) (pre.length + i) = pre ++ clearScan l₂ i := by
  intro n
  induction n with
  | zero =>
    intro l₂ pre i hn
    conv_lhs => rw [clearScan]
    conv_rhs => rw [clearScan]
    rw [dif_neg (by simp only [List.length_append]; omega), dif_neg (by omega)]
  | succ n ih =>
    intro l₂ pre i hn
    by_cases hg : i + 3 ≤ l₂.length
    · conv_lhs => rw [clearScan]
      conv_rhs => rw [clearScan]
      rw [dif_pos (by simp only [List.length_append]; omega), dif_pos hg]
      have e0 : (pre ++ l₂)[pre.length + i]? = l₂[i]? := getElem?_append_right_op pre l₂ i
      have e1 : (pre ++ l₂)[pre.length + i + 1]? = l₂[i+1]? := by
        rw [Nat.add_assoc]
        exact getElem?_append_right_op pre l₂ (i+1)
      have e2 : (pre ++ l₂)[pre.length + i + 2]? = l₂[i+2]? := by
        rw [Nat.add_assoc]
        exact getElem?_append_right_op pre l₂ (i+2)
      rw [e0, e1, e2]
      split
      · rename_i t d u heq0 heq1 heq2
        have hsets : (((pre ++ l₂).set (pre.length + i) Op.Clear).set (pre.length + i + 1)
              Op.Empty).set (pre.length + i + 2) Op.Empty
            = pre ++ ((l₂.set i Op.Clear).set (i+1) Op.Empty).set (i+2) Op.Empty := by
          rw [set_append_right_op pre l₂ i Op.Clear, Nat.add_assoc,
            set_append_right_op pre (l₂.set i Op.Clear) (i+1) Op.Empty, Nat.add_assoc,
            set_append_right_op pre ((l₂.set i Op.Clear).set (i+1) Op.Empty) (i+2) Op.Empty]
        rw [hsets]
        have harith : pre.length + i + 3 = pre.length + (i + 3) := by omega
        rw [harith]
        exact ih (((l₂.set i Op.Clear).set (i+1) Op.Empty).set (i+2) Op.Empty) pre (i+3)
          (by simp only [List.length_set]; omega)
      · have harith : pre.length + i + 1 = pre.length + (i + 1) := by omega
        rw [harith]
        exact ih l₂ pre (i+1) (by omega)
    · conv_lhs => rw [clearScan]
      conv_rhs => rw [clearScan]
      rw [dif_neg (by simp only [List.length_append]; omega), dif_neg hg]

/-- A scan position whose first window element is not a `JumpR` advances
without modification. -/
theorem clearScan_step_fst (ops : List Op) (i : Nat) (x : Op)
    (hx : ops[i]? = some x) (hnx : isJumpR x = false) :
    clearScan ops i = clearScan ops (i+1) := by
  by_cases hguard : i + 3 ≤ ops.length
  · rw [clearScan, dif_pos hguard]
    split
    · rename_i t d u heq0 heq1 heq2
      rw [hx] at heq0
      injection heq0 with hx2
      subst hx2
      simp [isJumpR] at hnx
    · rfl
  · rw [clearScan, dif_neg hguard, clearScan, dif_neg (by omega)]

/-- A scan position whose middle window element is not a `Decrement`
advances without modification. -/
theorem clearScan_step_snd (ops : List Op) (i : Nat) (y : Op)
    (hy : ops[i+1]? = some y) (hny : ∀ m, y ≠ Op.Decrement m) :
    clearScan ops i = clearScan ops (i+1) := by
  by_cases hguard : i + 3 ≤ ops.length
  · rw [clearScan, dif_pos hguard]
    split
    · rename_i t d u heq0 heq1 heq2
      rw [hy] at heq1
      injection heq1 with hy2
      exact absurd hy2 (hny d)
    · rfl
  · rw [clearScan, dif_neg hguard, clearScan, dif_neg (by omega)]

/-- C2 amended: the clear-loop rewrite replaces the window
`JumpIfZero, Decrement(n), JumpIfNonZero` for *every* count `n` (the code's
pattern is `Op::Decrement(_)`), not only `n = 1`, with
`Clear, NoOp, NoOp` and continues past it; a window whose middle is an
`Increment(n)` is left unmodified. -/
theorem c2_amended_clear_loop_windows :
    (∀ (a n b : Nat) (rest : List Op),
      rewrite_clear_loops (Op.Jump (Jump.JumpR a) :: Op.Decrement n :: Op.Jump (Jump.JumpL b)
          :: rest)
        = Op.Clear :: Op.Empty :: Op.Empty :: rewrite_clear_loops rest)
    ∧ (∀ (a n b : Nat) (rest : List Op),
      rewrite_clear_loops (Op.Jump (Jump.JumpR a) :: Op.Increment n :: Op.Jump (Jump.JumpL b)
          :: rest)
        = Op.Jump (Jump.JumpR a) :: Op.Increment n :: Op.Jump (Jump.JumpL b)
          :: rewrite_clear_loops rest) := by
  constructor
  · intro a n b rest
    show clearScan _ 0 = _
    rw [clearScan, dif_pos (by simp only [List.length_cons]; omega)]
    simp only [List.getElem?_cons_zero, List.getElem?_cons_succ]
    have hsets : ((((Op.Jump (Jump.JumpR a) :: Op.Decrement n :: Op.Jump (Jump.JumpL b)
          :: rest).set 0 Op.Clear).set 1 Op.Empty).set 2 Op.Empty)
        = [Op.Clear, Op.Empty, Op.Empty] ++ rest := by
      simp [List.set]
    rw [hsets]
    have := clearScan_shift rest.length rest [Op.Clear, Op.Empty, Op.Empty] 0 (by omega)
    simpa using this
  · intro a n b rest
    rw [rewrite_clear_loops,
      clearScan_step_snd _ 0 (Op.Increment n) (by simp) (fun m h => by cases h),
      clearScan_step_fst _ 1 (Op.Increment n) (by simp) rfl,
      clearScan_step_fst _ 2 (Op.Jump (Jump.JumpL b)) (by simp) rfl]
    have := clearScan_shift rest.length rest
      [Op.Jump (Jump.JumpR a), Op.Increment n, Op.Jump (Jump.JumpL b)] 0 (by omega)
    simpa [rewrite_clear_loops] using this

/-! Verification of trailing-dead-code elimination. -/

theorem position_eq_some_of (p : Op → Bool) : ∀ (l : List Op) (k : Nat),
    (l[k]?).any p = true → (∀ j, j < k → ¬((l[j]?).any p = true)) →
    position p l = some k := by
  intro l
  induction l with
  | nil => intro k hk _; simp at hk
  | cons o rest ih =>
    intro k hk hmin
    cases k with
    | zero =>
      simp only [List.getElem?_cons_zero, Option.any] at hk
      rw [position, if_pos hk]
    | succ m =>
      have hpo : ¬(p o = true) := by
        have := hmin 0 (Nat.succ_pos m)
        simpa using this
      rw [position, if_neg hpo,
        ih m (by simpa using hk) (fun j hj => by simpa using hmin (j+1) (by omega))]
      rfl

theorem position_eq_none_of (p : Op → Bool) : ∀ l : List Op,
    (∀ j : Nat, ¬((l[j]?).any p = true)) → position p l = none := by
  intro l
  induction l with
  | nil => intro _; rfl
  | cons o rest ih =>
    intro h
    have hpo : ¬(p o = true) := by simpa using h 0
    rw [position, if_neg hpo, ih (fun j => by simpa using h (j+1))]
    rfl

theorem rposition_eq_none_of (p : Op → Bool) : ∀ l : List Op,
    (∀ j : Nat, ¬((l[j]?).any p = true)) → rposition p l = none := by
  intro l
  induction l with
  | nil => intro _; rfl
  | cons o rest ih =>
    intro h
    have hpo : ¬(p o = true) := by simpa using h 0
    rw [rposition, ih (fun j => by simpa using h (j+1)), if_neg hpo]

theorem rposition_eq_some_of (p : Op → Bool) : ∀ (l : List Op) (k : Nat),
    (l[k]?).any p = true → (∀ j, k < j → ¬((l[j]?).any p = true)) →
    rposition p l = some k := by
  intro l
  induction l with
  | nil => intro k hk _; simp at hk
  | cons o rest ih =>
    intro k hk hmax
    cases k with
    | zero =>
      simp only [List.getElem?_cons_zero, Option.any] at hk
      rw [rposition, rposition_eq_none_of p rest
        (fun j => by simpa using hmax (j+1) (by omega)), if_pos hk]
    | succ m =>
      rw [rposition,
        ih m (by simpa using hk) (fun j hj => by simpa using hmax (j+1) (by omega))]

theorem fillRangeGo_getElem? (a b : Nat) : ∀ (l : List Op) (k0 j : Nat),
    (fillRangeGo a b k0 l)[j]?
      = (l[j]?).map (fun o => if a ≤ k0 + j ∧ k0 + j < b then Op.Empty else o) := by
  intro l
  induction l with
  | nil => intro k0 j; simp [fillRangeGo]
  | cons o rest ih =>
    intro k0 j
    cases j with
    | zero => simp [fillRangeGo]
    | succ m =>
      simp only [fillRangeGo, List.getElem?_cons_succ]
      rw [ih (k0+1) m]
      have : k0 + 1 + m = k0 + (m + 1) := by omega
      rw [this]

theorem fillRange_getElem?_in (a b : Nat) (l : List Op) (j : Nat)
    (h1 : a ≤ j) (h2 : j < b) (h3 : j < l.length) :
    (fillRange a b l)[j]? = some Op.Empty := by
  rw [fillRange, fillRangeGo_getElem?, List.getElem?_eq_getElem h3]
  simp only [Option.map_some']
  rw [if_pos (by omega)]

theorem fillRange_getElem?_out (a b : Nat) (l : List Op) (j : Nat)
    (h : j < a ∨ b ≤ j) :
    (fillRange a b l)[j]? = l[j]? := by
  rw [fillRange, fillRangeGo_getElem?]
  cases hl : l[j]? with
  | none => rfl
  | some o =>
    simp only [Option.map_some']
    rw [if_neg (by omega)]

/-- C5 amended: erasure begins strictly after the *first* `JumpIfNonZero`
following the last `Get`/`Debug` — whether or not that close bracket belongs
to a loop enclosing the observable instruction — and everything up to and
including that close bracket is retained; when no `JumpIfNonZero` follows,
erasure begins right after the last `Get`/`Debug` itself. -/
theorem c5_amended_trailing_boundary (ops : List Op) :
    (∀ (last e : Nat),
      (ops[last]?).any (fun o => o == Op.Get || o == Op.Debug) = true →
      (∀ j, last < j → ¬((ops[j]?).any (fun o => o == Op.Get || o == Op.Debug) = true)) →
      last + 1 ≠ ops.length →
      last < e →
      (ops[e]?).any isJumpL = true →
      (∀ j, last < j → j < e → ¬((ops[j]?).any isJumpL = true)) →
      (∀ k, k ≤ e → (remove_trailing_ops ops)[k]? = ops[k]?)
      ∧ (∀ k, e < k → k < ops.length → (remove_trailing_ops ops)[k]? = some Op.Empty))
    ∧ (∀ (last : Nat),
      (ops[last]?).any (fun o => o == Op.Get || o == Op.Debug) = true →
      (∀ j, last < j → ¬((ops[j]?).any (fun o => o == Op.Get || o == Op.Debug) = true)) →
      last + 1 ≠ ops.length →
      (∀ j, last < j → ¬((ops[j]?).any isJumpL = true)) →
      (∀ k, k ≤ last → (remove_trailing_ops ops)[k]? = ops[k]?)
      ∧ (∀ k, last < k → k < ops.length → (remove_trailing_ops ops)[k]? = some Op.Empty)) := by
  constructor
  · intro last e hobs hmax hne hlt hje hmin
    have hrpos : rposition (fun o => o == Op.Get || o == Op.Debug) ops = some last :=
      rposition_eq_some_of _ ops last hobs hmax
    have hpos : position isJumpL (ops.drop (last+1)) = some (e - (last+1)) := by
      refine position_eq_some_of _ _ _ ?_ ?_
      · rw [List.getElem?_drop]
        have harith : last + 1 + (e - (last+1)) = e := by omega
        rw [harith]
        exact hje
      · intro j hj
        rw [List.getElem?_drop]
        exact hmin (last+1+j) (by omega) (by omega)
    have hres : remove_trailing_ops ops = fillRange (e+1) ops.length ops := by
      rw [remove_trailing_ops, hrpos]
      simp only [if_neg hne, hpos]
      have harith : last + 1 + (e - (last+1)) = e := by omega
      rw [harith]
    refine ⟨fun k hk => ?_, fun k hk1 hk2 => ?_⟩
    · rw [hres]
      exact fillRange_getElem?_out _ _ _ _ (Or.inl (by omega))
    · rw [hres]
      exact fillRange_getElem?_in _ _ _ _ (by omega) (by omega) hk2
  · intro last hobs hmax hne hnoclose
    have hrpos : rposition (fun o => o == Op.Get || o == Op.Debug) ops = some last :=
      rposition_eq_some_of _ ops last hobs hmax
    have hpos : position isJumpL (ops.drop (last+1)) = none := by
      refine position_eq_none_of _ _ (fun j => ?_)
      rw [List.getElem?_drop]
      exact hnoclose (last+1+j) (by omega)
    have hres : remove_trailing_ops ops = fillRange (last+1) ops.length ops := by
      rw [remove_trailing_ops, hrpos]
      simp only [if_neg hne, hpos]
    refine ⟨fun k hk => ?_, fun k hk1 hk2 => ?_⟩
    · rw [hres]
      exact fillRange_getElem?_out _ _ _ _ (Or.inl (by omega))
    · rw [hres]
      exact fillRange_getElem?_in _ _ _ _ (by omega) (by omega) hk2

/-- Witness for the amended C5 on the sequence
`Increment 42, JumpR, Decrement 1, Get, JumpL, Increment 1, Decrement 1`
(last observable at 3, first close bracket after it at 4): position 4 is
retained, position 5 erased. -/
theorem c5_amended_trailing_boundary_witness :
    (remove_trailing_ops [Op.Increment 42, Op.Jump (Jump.JumpR 0), Op.Decrement 1, Op.Get,
        Op.Jump (Jump.JumpL 0), Op.Increment 1, Op.Decrement 1])[4]?
      = some (Op.Jump (Jump.JumpL 0))
    ∧ (remove_trailing_ops [Op.Increment 42, Op.Jump (Jump.JumpR 0), Op.Decrement 1, Op.Get,
        Op.Jump (Jump.JumpL 0), Op.Increment 1, Op.Decrement 1])[5]?
      = some Op.Empty := by
  have hbound : ∀ (l : List Op) (pbool : Op → Bool) (j : Nat), l.length ≤ j →
      ¬((l[j]?).any pbool = true) := by
    intro l pbool j hj
    rw [List.getElem?_eq_none hj]
    simp
  have h := (c5_amended_trailing_boundary [Op.Increment 42, Op.Jump (Jump.JumpR 0),
      Op.Decrement 1, Op.Get, Op.Jump (Jump.JumpL 0), Op.Increment 1, Op.Decrement 1]).1
    3 4 (by decide)
    (by
      intro j hj
      by_cases hjl : j < 7
      · interval_cases j <;> decide
      · exact hbound _ _ j (by simp only [List.length_cons, List.length_nil]; omega))
    (by decide) (by decide) (by decide)
    (by
      intro j hj1 hj2
      interval_cases j)
  have h4 := h.1 4 (by omega)
  have h5 := h.2 5 (by omega) (by simp only [List.length_cons, List.length_nil]; omega)
  rw [h4, h5]
  exact ⟨by decide, rfl⟩

/-- No two adjacent unit-step operations of the complementary pair. -/
def no_adjacent_steps (left right : Nat → Op) : List Op → Prop
  | [] => True
  | [_] => True
  | x :: y :: rest =>
      ((x = left 1 ∨ x = right 1) → ¬(y = left 1 ∨ y = right 1))
      ∧ no_adjacent_steps left right (y :: rest)

theorem noAdj_cons_intro (left right : Nat → Op) (x : Op) (l : List Op)
    (hhead : ∀ y, l.head? = some y → (x = left 1 ∨ x = right 1) → ¬(y = left 1 ∨ y = right 1))
    (hl : no_adjacent_steps left right l) : no_adjacent_steps left right (x :: l) := by
  cases l with
  | nil => trivial
  | cons y l' => exact ⟨hhead y rfl, hl⟩

theorem noAdj_cons_elim (left right : Nat → Op) (x : Op) (l : List Op)
    (h : no_adjacent_steps left right (x :: l)) : no_adjacent_steps left right l := by
  cases l with
  | nil => trivial
  | cons y l' => exact h.2

theorem noAdj_replicate_append (left right : Nat → Op)
    (hE1 : Op.Empty ≠ left 1) (hE2 : Op.Empty ≠ right 1) :
    ∀ (k : Nat) (l : List Op), no_adjacent_steps left right l →
      no_adjacent_steps left right (List.replicate k Op.Empty ++ l) := by
  intro k
  induction k with
  | zero => intro l hl; simpa using hl
  | succ k ih =>
    intro l hl
    rw [List.replicate_succ, List.cons_append]
    refine noAdj_cons_intro left right _ _ ?_ (ih l hl)
    intro y _ hstep
    exact absurd hstep (not_or.mpr ⟨hE1, hE2⟩)

/-- The output of run-length folding never has two adjacent unit steps. -/
theorem noAdj_fold (left right : Nat → Op)
    (hE1 : Op.Empty ≠ left 1) (hE2 : Op.Empty ≠ right 1) :
    ∀ (n : Nat) (l : List Op), l.length ≤ n →
      no_adjacent_steps left right (fold_consecutive_ops left right l) := by
  intro n
  induction n with
  | zero =>
    intro l hlen
    have : l = [] := List.eq_nil_of_length_eq_zero (Nat.le_zero.mp hlen)
    subst this
    rw [fold_nil]
    trivial
  | succ n ih =>
    intro l hlen
    cases l with
    | nil => rw [fold_nil]; trivial
    | cons op rest =>
      by_cases hstep : op = left 1 ∨ op = right 1
      · rw [fold_cons_step left right rest hstep]
        refine noAdj_cons_intro left right _ _ ?_ ?_
        · intro y hy _
          cases htk : rest.takeWhile (fun o => (o = left 1 || o = right 1 : Bool)) with
          | cons t ts =>
            rw [htk, List.length_cons, List.replicate_succ, List.cons_append,
              List.head?_cons] at hy
            cases hy
            exact not_or.mpr ⟨hE1, hE2⟩
          | nil =>
            rw [htk, List.length_nil, List.replicate_zero, List.nil_append] at hy
            cases rest with
            | nil => rw [List.dropWhile_nil, fold_nil, List.head?_nil] at hy; cases hy
            | cons z rest'' =>
              have hz : ¬((fun o => (o = left 1 || o = right 1 : Bool)) z = true) := by
                intro hzP
                rw [@List.takeWhile_cons_of_pos Op
                  (fun o => (o = left 1 || o = right 1 : Bool)) z rest'' hzP] at htk
                cases htk
              have hzns : ¬(z = left 1 ∨ z = right 1) := by simpa using hz
              rw [@List.dropWhile_cons_of_neg Op
                  (fun o => (o = left 1 || o = right 1 : Bool)) z rest'' hz,
                fold_cons_not_step left right rest'' hzns, List.head?_cons] at hy
              cases hy
              exact hzns
        · refine noAdj_replicate_append left right hE1 hE2 _ _ (ih _ ?_)
          have := dropWhile_len_le (fun o => (o = left 1 || o = right 1 : Bool)) rest
          simp only [List.length_cons] at hlen
          omega
      · rw [fold_cons_not_step left right rest hstep]
        refine noAdj_cons_intro left right _ _ ?_ (ih rest ?_)
        · intro y _ hstepop
          exact absurd hstepop hstep
        · simp only [List.length_cons] at hlen
          omega

/-- A sequence with no two adjacent unit steps is a fixed point of the
fold. -/
theorem fold_fix_of_noAdj (left right : Nat → Op) (hneq : left 1 ≠ right 1) :
    ∀ (n : Nat) (l : List Op), l.length ≤ n →
      no_adjacent_steps left right l → fold_consecutive_ops left right l = l := by
  intro n
  induction n with
  | zero =>
    intro l hlen _
    have : l = [] := List.eq_nil_of_length_eq_zero (Nat.le_zero.mp hlen)
    subst this
    exact fold_nil left right
  | succ n ih =>
    intro l hlen hadj
    cases l with
    | nil => exact fold_nil left right
    | cons op rest =>
      by_cases hstep : op = left 1 ∨ op = right 1
      · have hrest : ∀ z rest'', rest = z :: rest'' → ¬(z = left 1 ∨ z = right 1) := by
          intro z rest'' hz
          subst hz
          exact hadj.1 hstep
        have htk : rest.takeWhile (fun o => (o = left 1 || o = right 1 : Bool)) = [] := by
          cases rest with
          | nil => rfl
          | cons z rest'' =>
            exact List.takeWhile_cons_of_neg (by simpa using hrest z rest'' rfl)
        have hdw : rest.dropWhile (fun o => (o = left 1 || o = right 1 : Bool)) = rest := by
          cases rest with
          | nil => rfl
          | cons z rest'' =>
            exact List.dropWhile_cons_of_neg (by simpa using hrest z rest'' rfl)
        rw [fold_cons_step left right rest hstep, htk, hdw]
        simp only [List.length_nil, List.replicate_zero, List.nil_append]
        have hwrite : fold_write left right [op] = op := by
          rcases hstep with hL | hR
          · subst hL
            simp [fold_write, net_of_run]
          · subst hR
            rw [fold_write, net_of_run]
            simp only [List.foldl_cons, List.foldl_nil, if_neg (Ne.symm hneq), if_pos rfl]
            norm_num
        rw [hwrite, ih rest (by simp only [List.length_cons] at hlen; omega)
          (noAdj_cons_elim left right op rest hadj)]
      · rw [fold_cons_not_step left right rest hstep,
          ih rest (by simp only [List.length_cons] at hlen; omega)
            (noAdj_cons_elim left right op rest hadj)]

/-- C10: confirmed.  For every instruction sequence and complementary
constructor pair (the pair's two unit steps are distinct from each other and
from the tombstone, as `MoveL`/`MoveR` and `Decrement`/`Increment` are),
running `fold_consecutive_ops` a second time on its own output changes
nothing: the first pass leaves no two adjacent unit steps, and such
sequences are fixed points of the pass. -/
theorem c10_fold_idempotent (left right : Nat → Op)
    (hE1 : Op.Empty ≠ left 1) (hE2 : Op.Empty ≠ right 1) (hneq : left 1 ≠ right 1)
    (ops : List Op) :
    fold_consecutive_ops left right (fold_consecutive_ops left right ops)
      = fold_consecutive_ops left right ops :=
  fold_fix_of_noAdj left right hneq (fold_consecutive_ops left right ops).length _
    (Nat.le_refl _) (noAdj_fold left right hE1 hE2 ops.length ops (Nat.le_refl _))

/-- Witness for C10 at the `MoveL`/`MoveR` pair on a mixed sequence. -/
theorem c10_fold_idempotent_witness :
    fold_consecutive_ops Op.MoveL Op.MoveR
        (fold_consecutive_ops Op.MoveL Op.MoveR
          [Op.MoveR 1, Op.MoveR 1, Op.MoveL 1, Op.Get, Op.MoveL 1])
      = fold_consecutive_ops Op.MoveL Op.MoveR
          [Op.MoveR 1, Op.MoveR 1, Op.MoveL 1, Op.Get, Op.MoveL 1] :=
  c10_fold_idempotent Op.MoveL Op.MoveR (by decide) (by decide) (by decide)
    [Op.MoveR 1, Op.MoveR 1, Op.MoveL 1, Op.Get, Op.MoveL 1]

end Brainrot

namespace Bri

/-- C3: counterexample.  Executing `Op::Set` with an exhausted input stream
does not fail: `read` returns `Ok(0)` at end of stream, the zero-initialised
buffer is untouched, and the current cell silently receives 0 — execution
succeeds with the cell holding the empty value the claim rules out. -/
theorem c3_counterexample :
    (exec 2 [Op.Set] 0 Cpu.default [] []).map (fun r => (r.1.pc, r.1.ram 0, r.2.1)) =
      .ok (0, 0, []) :=
  rfl

/-- C3 amended: confirmed.  When `Op::Set` executes with the input stream
exhausted, `read` returns zero bytes leaving the one-byte buffer at its
initial 0, so the current cell is set to 0 and execution continues with the
next instruction; exhaustion is not fatal (only a genuine I/O error, not
modelled, would abort). -/
theorem c3_amended_set_on_empty_input (fuel i : Nat) (ops : List Op) (cpu : Cpu)
    (out : List Nat) (h : ops[i]? = some Op.Set) :
    exec (fuel + 1) ops i cpu [] out
      = exec fuel ops (i+1) ⟨cpu.pc, write cpu.ram cpu.pc 0⟩ [] out := by
  conv_lhs => unfold exec
  rw [h]
  rfl

/-- Witness for the amended C3 at the one-instruction program `,` with empty
input. -/
theorem c3_amended_set_on_empty_input_witness :
    exec 2 [Op.Set] 0 Cpu.default [] []
      = exec 1 [Op.Set] 1 ⟨Cpu.default.pc, write Cpu.default.ram Cpu.default.pc 0⟩ [] [] :=
  c3_amended_set_on_empty_input 1 0 [Op.Set] Cpu.default [] rfl

/-- C9: confirmed.  A `MoveR` executed with the data pointer one cell below
the 30000-cell bound fails fatally (the incremented pointer would reach the
tape length), a `MoveL` executed at pointer 0 fails fatally, and in the
non-boundary cases the pointer moves by exactly one cell with no wrap-around
at either end. -/
theorem c9_pointer_bounds :
    (∀ (fuel i : Nat) (ops : List Op) (cpu : Cpu) (input out : List Nat),
        ops[i]? = some Op.MoveR → cpu.pc + 1 = RAM_SIZE →
        exec (fuel + 1) ops i cpu input out = .error .oobRight)
    ∧ (∀ (fuel i : Nat) (ops : List Op) (cpu : Cpu) (input out : List Nat),
        ops[i]? = some Op.MoveL → cpu.pc = 0 →
        exec (fuel + 1) ops i cpu input out = .error .oobLeft)
    ∧ (∀ (fuel i : Nat) (ops : List Op) (cpu : Cpu) (input out : List Nat),
        ops[i]? = some Op.MoveR → cpu.pc + 1 ≠ RAM_SIZE →
        exec (fuel + 1) ops i cpu input out
          = exec fuel ops (i+1) ⟨cpu.pc + 1, cpu.ram⟩ input out)
    ∧ (∀ (fuel i : Nat) (ops : List Op) (cpu : Cpu) (input out : List Nat),
        ops[i]? = some Op.MoveL → cpu.pc ≠ 0 →
        exec (fuel + 1) ops i cpu input out
          = exec fuel ops (i+1) ⟨cpu.pc - 1, cpu.ram⟩ input out) := by
  refine ⟨?_, ?_, ?_, ?_⟩ <;>
    (intro fuel i ops cpu input out h hpc; conv_lhs => unfold exec
     rw [h]; simp [execOp, hpc])

/-- Witness for C9: `>` at pointer 29999 and `<` at pointer 0 are fatal. -/
theorem c9_pointer_bounds_witness :
    exec 1 [Op.MoveR] 0 ⟨29999, fun _ => 0⟩ [] [] = .error .oobRight
    ∧ exec 1 [Op.MoveL] 0 ⟨0, fun _ => 0⟩ [] [] = .error .oobLeft :=
  ⟨c9_pointer_bounds.1 0 0 [Op.MoveR] ⟨29999, fun _ => 0⟩ [] [] rfl rfl,
   c9_pointer_bounds.2.1 0 0 [Op.MoveL] ⟨0, fun _ => 0⟩ [] [] rfl rfl⟩

end Bri
